/-
Verification of the TreeDrawer directory-tree renderer (src/main.py).

The filesystem is modelled as an inductive tree of entries.  A file carries
its name, its last-modified timestamp (modelled as the already-formatted
display string produced by strftime) and its byte size; a directory carries
its name, its timestamp string and its list of children, in the order the
operating system would yield them from iterdir().  All string building
mirrors the Python source; colorama color codes are the concrete ANSI
escape strings colorama defines.
-/
import Mathlib

namespace TreeDrawer

/-- colorama.Fore.BLUE -/
def foreBLUE : String := "\x1b[34m"

/-- colorama.Fore.GREEN -/
def foreGREEN : String := "\x1b[32m"

/-- colorama.Fore.WHITE -/
def foreWHITE : String := "\x1b[37m"

/-- __FORK_STRING = colorama.Fore.WHITE + '├──' -/
def FORK_STRING : String := foreWHITE ++ "├──"

/-- __CORNER_STRING = colorama.Fore.WHITE + '└──' -/
def CORNER_STRING : String := foreWHITE ++ "└──"

/-- __WALL_STRING = colorama.Fore.WHITE + '│  ' -/
def WALL_STRING : String := foreWHITE ++ "│  "

/-- __SPACE_STRING = '   ' -/
def SPACE_STRING : String := "   "

/-- One filesystem entry: a file (name, formatted mtime, byte size) or a
directory (name, formatted mtime, children as listed by iterdir). -/
inductive Entry where
  | file : String → String → Nat → Entry
  | dir : String → String → List Entry → Entry

/-- Path.name of the entry. -/
def Entry.name : Entry → String
  | .file n _ _ => n
  | .dir n _ _ => n

/-- The formatted last-modified time of the entry. -/
def Entry.mtime : Entry → String
  | .file _ m _ => m
  | .dir _ m _ => m

/-- Path.is_dir() for the entry. -/
def Entry.is_dir : Entry → Bool
  | .file _ _ _ => false
  | .dir _ _ _ => true

/-- Path.is_file() for the entry. -/
def Entry.is_file : Entry → Bool
  | .file _ _ _ => true
  | .dir _ _ _ => false

/-- st_size of a file entry (0 for a directory, which has no intrinsic size). -/
def Entry.byteSize : Entry → Nat
  | .file _ _ s => s
  | .dir _ _ _ => 0

/-- The children a directory entry yields from iterdir (empty for a file). -/
def Entry.children : Entry → List Entry
  | .file _ _ _ => []
  | .dir _ _ cs => cs

/-- The constructor-time configuration of a TreeDrawer instance.  The
ignored patterns are kept as the list passed to __init__; __init__ stores
them in a set, so only membership in the list is ever observable. -/
structure Config where
  ignored : List String
  show_files : Bool
  show_modified_time : Bool
  show_size : Bool
  show_hidden : Bool

/-! ### fnmatch: shell-glob matching, as fnmatch.translate builds it

fnmatch.fnmatch(name, pattern) translates the pattern into a token
sequence (`*`, `?`, `[...]` character classes, literal characters) and
matches the whole name against it.  On POSIX os.path.normcase is the
identity, so no case folding happens. -/

/-- The chunk scan of fnmatch.translate on a class body: a `-` splits
the body into chunks unless it stands in a protected position -- the
first character of the body (one more if the body opened with `!`,
which parseSet below strips before this runs), or the first two
characters of a chunk opened by a previous separator (the scan resumes
at `k+3`).  A separator that is the last character of the body is
instead appended literally to the chunk before it (`chunks[-1] += '-'`).
A body with no `-` comes out as one single chunk, as in the
translate branch that skips chunking. -/
def buildChunks (acc : List Char) (protect : Nat) :
    List Char → List (List Char)
  | [] => [acc]
  | c :: rest =>
    if c = '-' ∧ protect = 0 then
      match rest with
      | [] => [acc ++ ['-']]
      | _ :: _ => acc :: buildChunks [] 2 rest
    else buildChunks (acc ++ [c]) (protect - 1) rest

/-- The empty-range removal loop of fnmatch.translate, right to left: an
adjacent pair of chunks whose range would be inverted (the last
character of the left chunk above the first of the right) loses both
endpoints and the two chunks merge into one. -/
def mergeChunks : List (List Char) → List (List Char)
  | [] => []
  | [a] => [a]
  | a :: b0 :: rest =>
    match mergeChunks (b0 :: rest) with
    | [] => [a]
    | b :: rest2 =>
      match a.getLast?, b.head? with
      | some lo, some hi =>
        if hi.val < lo.val then (a.dropLast ++ b.drop 1) :: rest2
        else a :: b :: rest2
      | _, _ => a :: b :: rest2

/-- A character against the joined chunk sequence, the regex class
fnmatch.translate emits: inside a chunk every character except the last
is literal (escaped hyphens included); the last character of one chunk
and the first character of the next form a code-point range, and the
two characters a range consumes are not literals. -/
def matchChunks (c : Char) (a : List Char) : List (List Char) → Bool
  | [] => a.any (fun x => c == x)
  | b :: rest =>
    a.dropLast.any (fun x => c == x)
    || (match a.getLast?, b.head? with
        | some lo, some hi => lo.val ≤ c.val && c.val ≤ hi.val
        | _, _ => false)
    || matchChunks c (b.drop 1) rest

/-- A character against a completed chunk list; an empty list (the
whole class body merged away, translate's `(?!)`) matches nothing. -/
def matchSet (c : Char) : List (List Char) → Bool
  | [] => false
  | a :: rest => matchChunks c a rest

/-- Scan for the closing `]` of a class, returning the body before it and
the remainder of the pattern after it. -/
def findClose : List Char → Option (List Char × List Char)
  | [] => none
  | c :: rest =>
    if c = ']' then some ([], rest)
    else
      match findClose rest with
      | none => none
      | some (stuff, rem) => some (c :: stuff, rem)

/-- Parse the inside of a `[...]` class following fnmatch.translate: a
leading `!` negates, a `]` directly after `[` (or after `[!`) is part of
the body, and if no closing `]` exists the `[` is literal (`none`). -/
def parseSet (ps : List Char) : Option (Bool × List Char × List Char) :=
  match ps with
  | [] => none
  | c :: rest =>
    if c = '!' then
      match rest with
      | [] => none
      | d :: rest2 =>
        if d = ']' then
          match findClose rest2 with
          | none => none
          | some (stuff, rem) => some (true, ']' :: stuff, rem)
        else
          match findClose rest with
          | none => none
          | some (stuff, rem) => some (true, stuff, rem)
    else if c = ']' then
      match findClose rest with
      | none => none
      | some (stuff, rem) => some (false, ']' :: stuff, rem)
    else
      match findClose ps with
      | none => none
      | some (stuff, rem) => some (false, stuff, rem)

/-- One token of the translated pattern. -/
inductive GlobTok where
  | star : GlobTok
  | anyChar : GlobTok
  | lit : Char → GlobTok
  | cls : Bool → List (List Char) → GlobTok

theorem findClose_length : ∀ {l stuff rem : List Char},
    findClose l = some (stuff, rem) → rem.length < l.length := by
  intro l
  induction l with
  | nil => intro stuff rem h; simp [findClose] at h
  | cons c rest ih =>
    intro stuff rem h
    rw [findClose] at h
    split at h
    · simp at h
      simp [← h.2]
    · split at h
      · simp at h
      · rename_i s2 r2 heq
        have hr := ih heq
        simp at h
        obtain ⟨h1, h2⟩ := h
        subst h2
        simp at hr ⊢
        omega

theorem parseSet_length {ps : List Char} {neg : Bool} {stuff rem : List Char}
    (h : parseSet ps = some (neg, stuff, rem)) : rem.length < ps.length := by
  rw [parseSet.eq_def] at h
  split at h
  · simp at h
  · rename_i c rest
    split at h
    · split at h
      · simp at h
      · rename_i d rest2
        split at h
        · split at h
          · simp at h
          · rename_i s2 r2 heq
            have hfc := findClose_length heq
            simp at h
            obtain ⟨h1, h2, h3⟩ := h
            subst h3
            simp at hfc ⊢
            omega
        · split at h
          · simp at h
          · rename_i s2 r2 heq
            have hfc := findClose_length heq
            simp at h
            obtain ⟨h1, h2, h3⟩ := h
            subst h3
            simp at hfc ⊢
            omega
    · split at h
      · split at h
        · simp at h
        · rename_i s2 r2 heq
          have hfc := findClose_length heq
          simp at h
          obtain ⟨h1, h2, h3⟩ := h
          subst h3
          simp at hfc ⊢
          omega
      · split at h
        · simp at h
        · rename_i s2 r2 heq
          have hfc := findClose_length heq
          simp at h
          obtain ⟨h1, h2, h3⟩ := h
          subst h3
          simp at hfc ⊢
          omega

/-- Translate a glob pattern into its token sequence, following
fnmatch.translate.  The Nat argument is recursion fuel: every step
consumes at least one pattern character (parseSet returns a strictly
shorter remainder, parseSet_length), so fuel equal to the pattern length
-- what the wrapper below passes -- is always enough.  A class is
carried as its merged chunk list; the one whose chunks collapse to
exactly `!` with no negation is translate's `stuff == '!'` case and
becomes the any-character token `.`. -/
def translateGlobF : Nat → List Char → List GlobTok
  | _, [] => []
  | 0, _ :: _ => []
  | fuel + 1, c :: rest =>
    if c = '*' then GlobTok.star :: translateGlobF fuel rest
    else if c = '?' then GlobTok.anyChar :: translateGlobF fuel rest
    else if c = '[' then
      match parseSet rest with
      | some (neg, stuff, rem) =>
        let chunks := mergeChunks (buildChunks [] 1 stuff)
        if neg = false ∧ chunks = [['!']] then
          GlobTok.anyChar :: translateGlobF fuel rem
        else
          GlobTok.cls neg chunks :: translateGlobF fuel rem
      | none => GlobTok.lit '[' :: translateGlobF fuel rest
    else GlobTok.lit c :: translateGlobF fuel rest

/-- Translate a glob pattern into its token sequence. -/
def translateGlob (ps : List Char) : List GlobTok :=
  translateGlobF ps.length ps

/-- Match a name against a translated pattern, whole-string semantics as
re.match with a trailing end anchor; the any-character token matches
every character (fnmatch compiles with DOTALL).  The Nat argument is
recursion fuel: every step shrinks tokens-plus-name by at least one, so
fuel equal to that sum -- what the wrapper below passes -- is always
enough, and at fuel zero both lists are already empty (a match). -/
def tokMatchF : Nat → List GlobTok → List Char → Bool
  | 0, ts, s => ts.isEmpty && s.isEmpty
  | _ + 1, [], s => s.isEmpty
  | fuel + 1, GlobTok.star :: rest, s =>
    tokMatchF fuel rest s ||
      (match s with
       | [] => false
       | _ :: s2 => tokMatchF fuel (GlobTok.star :: rest) s2)
  | fuel + 1, GlobTok.anyChar :: rest, s =>
    (match s with
     | [] => false
     | _ :: s2 => tokMatchF fuel rest s2)
  | fuel + 1, GlobTok.lit c :: rest, s =>
    (match s with
     | [] => false
     | d :: s2 => (d = c) && tokMatchF fuel rest s2)
  | fuel + 1, GlobTok.cls neg stuff :: rest, s =>
    (match s with
     | [] => false
     | d :: s2 => (matchSet d stuff ≠ neg) && tokMatchF fuel rest s2)

/-- Match a name against a translated pattern. -/
def tokMatch (ts : List GlobTok) (s : List Char) : Bool :=
  tokMatchF (ts.length + s.length) ts s

/-- fnmatch.fnmatch(name, pattern) (POSIX: no case folding). -/
def fnmatchPy (name pat : String) : Bool :=
  tokMatch (translateGlob pat.data) name.data

/-- TreeDrawer._is_ignored: the name matches some ignored pattern.
__init__ stores set(ignored); any over the set only observes
membership, which the list preserves. -/
def is_ignored (cfg : Config) (name : String) : Bool :=
  cfg.ignored.any (fun pat => fnmatchPy name pat)

/-- TreeDrawer._is_hidden: the name starts with a dot. -/
def is_hidden (name : String) : Bool :=
  match name.data with
  | '.' :: _ => true
  | _ => false

/-! ### _get_size: human-readable size formatting

Python formats `size / 1024` (respectively `size / (1024*1024)`) with
`:.1f`.  For the sizes a file system reports the quotient is exact in
double precision (`size * 2^-10` keeps the integer mantissa), and `:.1f`
rounds the exact value to one decimal digit with ties to even.  The model
therefore computes that rounding with exact integer arithmetic. -/

/-- Round num/den to the nearest integer, ties to even. -/
def roundHalfEven (num den : Nat) : Nat :=
  if 2 * (num % den) < den then num / den
  else if den < 2 * (num % den) then num / den + 1
  else if (num / den) % 2 = 0 then num / den else num / den + 1

/-- Format num/den with one digit after the decimal point (`:.1f`). -/
def formatFixed1 (num den : Nat) : String :=
  let t := roundHalfEven (10 * num) den
  toString (t / 10) ++ "." ++ toString (t % 10)

/-- TreeDrawer._get_size. -/
def get_size (size : Nat) : String :=
  if size < 1024 then "(" ++ toString size ++ " B)"
  else if size < 1024 * 1024 then "(" ++ formatFixed1 size 1024 ++ " KB)"
  else "(" ++ formatFixed1 size (1024 * 1024) ++ " MB)"

/-! ### _get_directory_size: total bytes of all files anywhere below a path

Python sums st_size over path.rglob('*') restricted to files; rglob
enumerates every descendant, hidden or not, with no filtering. -/

/-- All descendants that rglob('*') yields below a directory whose
immediate children are the given list. -/
def rglobAll : List Entry → List Entry
  | [] => []
  | e :: es =>
    e :: ((match e with
           | .dir _ _ cs => rglobAll cs
           | .file _ _ _ => []) ++ rglobAll es)

/-- Total byte size of all files anywhere below a directory with the
given immediate children. -/
def totalBytesUnder (cs : List Entry) : Nat :=
  (((rglobAll cs).filter Entry.is_file).map Entry.byteSize).sum

/-- TreeDrawer._get_directory_size. -/
def get_directory_size (e : Entry) : String :=
  get_size (totalBytesUnder e.children)

/-! ### Filtering and ordering of a directory listing -/

/-- Code-point comparison of two names, non-strict: how Python compares
the str components of the sort keys. -/
def strLeb : List Char → List Char → Bool
  | [], _ => true
  | _ :: _, [] => false
  | a :: as, b :: bs =>
    if a.toNat < b.toNat then true
    else if b.toNat < a.toNat then false
    else strLeb as bs

/-- Code-point comparison of two names, strict. -/
def strLtb : List Char → List Char → Bool
  | [], [] => false
  | [], _ :: _ => true
  | _ :: _, [] => false
  | a :: as, b :: bs =>
    if a.toNat < b.toNat then true
    else if b.toNat < a.toNat then false
    else strLtb as bs

theorem strLeb_total : ∀ a b : List Char, strLeb a b = true ∨ strLeb b a = true
  | [], _ => Or.inl rfl
  | _ :: _, [] => Or.inr rfl
  | a :: as, b :: bs => by
    rw [strLeb, strLeb]
    rcases Nat.lt_trichotomy a.toNat b.toNat with h | h | h
    · left; simp [h]
    · have h1 : ¬ a.toNat < b.toNat := by omega
      have h2 : ¬ b.toNat < a.toNat := by omega
      simp [h1, h2]
      exact strLeb_total as bs
    · right; simp [h]

theorem strLeb_trans : ∀ a b c : List Char,
    strLeb a b = true → strLeb b c = true → strLeb a c = true
  | [], _, _, _, _ => rfl
  | a :: as, [], c, hab, _ => by simp [strLeb] at hab
  | a :: as, b :: bs, [], _, hbc => by simp [strLeb] at hbc
  | a :: as, b :: bs, c :: cs, hab, hbc => by
    rw [strLeb] at hab hbc ⊢
    rcases Nat.lt_trichotomy a.toNat c.toNat with h | h | h
    · simp [h]
    · have h1 : ¬ a.toNat < c.toNat := by omega
      have h2 : ¬ c.toNat < a.toNat := by omega
      simp [h1, h2]
      split at hab <;> split at hbc <;> simp_all <;>
        first
          | omega
          | (exact strLeb_trans as bs cs (by assumption) (by assumption))
          | (rename_i hx hy _; exact absurd (by omega : a.toNat < c.toNat) h1)
    · exfalso
      split at hab <;> split at hbc <;> simp_all <;> omega
  termination_by a => a.length

theorem char_toNat_inj {a b : Char} (h : a.toNat = b.toNat) : a = b :=
  Char.eq_of_val_eq (UInt32.toNat.inj h)

theorem strLeb_antisymm : ∀ a b : List Char,
    strLeb a b = true → strLeb b a = true → a = b
  | [], [], _, _ => rfl
  | [], _ :: _, _, hba => by simp [strLeb] at hba
  | _ :: _, [], hab, _ => by simp [strLeb] at hab
  | a :: as, b :: bs, hab, hba => by
    rw [strLeb] at hab hba
    split at hab <;> split at hba <;> simp_all
    · omega
    · rename_i h1 h2
      have hac : a.toNat = b.toNat := by omega
      exact ⟨char_toNat_inj hac, strLeb_antisymm as bs hab hba⟩

theorem strLtb_of_leb_ne : ∀ a b : List Char,
    strLeb a b = true → a ≠ b → strLtb a b = true
  | [], [], _, hne => absurd rfl hne
  | [], _ :: _, _, _ => rfl
  | _ :: _, [], hab, _ => by simp [strLeb] at hab
  | a :: as, b :: bs, hab, hne => by
    rw [strLeb] at hab
    rw [strLtb]
    split at hab <;> rename_i h1
    · simp [h1]
    · split at hab <;> rename_i h2
      · simp at hab
      · have hac : a = b := char_toNat_inj (by omega)
        subst hac
        simp [h1, h2]
        exact strLtb_of_leb_ne as bs hab (by intro hc; exact hne (by rw [hc]))

/-- The comparison induced by sort key (x.is_file(), x.name): Python
compares the pairs lexicographically, False before True, names by code
point. -/
def entryRel (a b : Entry) : Prop :=
  a.is_file.toNat < b.is_file.toNat ∨
    (a.is_file = b.is_file ∧ strLeb a.name.data b.name.data = true)

instance : DecidableRel entryRel := fun a b => by
  unfold entryRel; infer_instance

instance : IsTotal Entry entryRel where
  total a b := by
    unfold entryRel
    cases ha : a.is_file <;> cases hb : b.is_file
    · rcases strLeb_total a.name.data b.name.data with h | h
      · exact Or.inl (Or.inr ⟨rfl, h⟩)
      · exact Or.inr (Or.inr ⟨rfl, h⟩)
    · exact Or.inl (Or.inl (by simp))
    · exact Or.inr (Or.inl (by simp))
    · rcases strLeb_total a.name.data b.name.data with h | h
      · exact Or.inl (Or.inr ⟨rfl, h⟩)
      · exact Or.inr (Or.inr ⟨rfl, h⟩)

instance : IsTrans Entry entryRel where
  trans a b c hab hbc := by
    unfold entryRel at *
    rcases hab with hab | ⟨hab, nab⟩ <;> rcases hbc with hbc | ⟨hbc, nbc⟩
    · cases ha : a.is_file <;> cases hb : b.is_file <;> cases hc : c.is_file <;>
        simp_all
    · left; rw [← hbc]; exact hab
    · left; rw [hab]; exact hbc
    · right; exact ⟨hab.trans hbc, strLeb_trans _ _ _ nab nbc⟩

/-- Lines 122-128 of _tree_structure: drop ignored names, then non-dirs
when show_files is off, then hidden names when show_hidden is off. -/
def filterEntries (cfg : Config) (entries : List Entry) : List Entry :=
  let e1 := entries.filter (fun e => !is_ignored cfg e.name)
  let e2 := if cfg.show_files then e1 else e1.filter (fun e => e.is_dir)
  if cfg.show_hidden then e2 else e2.filter (fun e => !is_hidden e.name)

/-- Line 130: entries.sort(key=lambda x: (x.is_file(), x.name)), a stable
sort on the key; insertion sort with the non-strict key comparison is
stable in the same way. -/
def orderEntries (cfg : Config) (entries : List Entry) : List Entry :=
  List.insertionSort entryRel (filterEntries cfg entries)

theorem sizeOf_filter_le (p : Entry → Bool) (l : List Entry) :
    sizeOf (l.filter p) ≤ sizeOf l := by
  induction l with
  | nil => simp [List.filter]
  | cons a l ih =>
    rw [List.filter]
    cases p a <;> simp <;> omega

theorem perm_sizeOf_eq {l1 l2 : List Entry} (h : l1.Perm l2) :
    sizeOf l1 = sizeOf l2 := by
  induction h with
  | nil => rfl
  | cons x _ ih => simp [ih]
  | swap x y l => simp; omega
  | trans _ _ ih1 ih2 => omega

theorem mem_filterEntries {cfg : Config} {cs : List Entry} {e : Entry}
    (h : e ∈ filterEntries cfg cs) : e ∈ cs := by
  unfold filterEntries at h
  cases hf : cfg.show_files <;> cases hh : cfg.show_hidden <;>
    simp [hf, hh, List.mem_filter] at h <;> tauto

theorem sizeOf_filterEntries_le (cfg : Config) (cs : List Entry) :
    sizeOf (filterEntries cfg cs) ≤ sizeOf cs := by
  unfold filterEntries
  dsimp only
  cases hf : cfg.show_files <;> cases hh : cfg.show_hidden <;> simp [hf, hh] <;>
    first
      | exact le_trans (sizeOf_filter_le _ _)
          (le_trans (sizeOf_filter_le _ _) (sizeOf_filter_le _ _))
      | exact le_trans (sizeOf_filter_le _ _) (sizeOf_filter_le _ _)
      | exact sizeOf_filter_le _ _

theorem sizeOf_orderEntries_le (cfg : Config) (cs : List Entry) :
    sizeOf (orderEntries cfg cs) ≤ sizeOf cs := by
  have h1 : (orderEntries cfg cs).Perm (filterEntries cfg cs) :=
    List.perm_insertionSort entryRel (filterEntries cfg cs)
  rw [perm_sizeOf_eq h1]
  exact sizeOf_filterEntries_le cfg cs

theorem mem_orderEntries {cfg : Config} {cs : List Entry} {e : Entry}
    (h : e ∈ orderEntries cfg cs) : e ∈ cs :=
  mem_filterEntries ((List.perm_insertionSort entryRel _).subset h)

theorem sizeOf_lt_of_mem_orderEntries {cfg : Config} {cs : List Entry}
    {e : Entry} (h : e ∈ orderEntries cfg cs) : sizeOf e < sizeOf cs :=
  List.sizeOf_lt_of_mem (mem_orderEntries h)

/-! ### _tree_structure: recursive rendering -/

/-- The body of the enumerate loop in _tree_structure (lines 134-156):
build the printed line for one entry.  The dir arm keeps the source's
truthiness tests on the two annotation strings; a strftime result is
never empty, and _get_size output always starts with a parenthesis. -/
def entryLine (cfg : Config) (pre connector : String) (e : Entry) : String :=
  match e with
  | .dir nm mt cs =>
    let modified_time := if cfg.show_modified_time then mt else ""
    let size := if cfg.show_size then get_directory_size (.dir nm mt cs) else ""
    let line := pre ++ connector ++ " " ++ foreBLUE ++ nm ++ "/"
    if modified_time ≠ "" ∨ size ≠ "" then
      let line2 := if modified_time ≠ "" then
        line ++ " " ++ foreWHITE ++ "[Modified: " ++ modified_time ++ "]" else line
      let line3 := if size ≠ "" then
        line2 ++ " " ++ foreWHITE ++ "[Size: " ++ size ++ "]" else line2
      line3
    else line
  | .file nm mt sz =>
    let line := pre ++ connector ++ " " ++ foreGREEN ++ nm
    let line2 := if cfg.show_modified_time then
      line ++ " " ++ foreWHITE ++ "[Modified: " ++ mt ++ "]" else line
    let line3 := if cfg.show_size && (Entry.file nm mt sz).is_file then
      line2 ++ " " ++ foreWHITE ++ "[Size: " ++ get_size sz ++ "]" else line2
    line3

mutual

/-- TreeDrawer._tree_structure for a directory whose iterdir listing is
cs: filter, sort, then render each entry with its connector and recurse
into subdirectories with the extended prefix. -/
def tree_structure (cfg : Config) (cs : List Entry) (pre : String) :
    List String :=
  renderEntries cfg (orderEntries cfg cs).length 0 pre (orderEntries cfg cs)
termination_by 2 * sizeOf cs + 1
decreasing_by
  have := sizeOf_orderEntries_le cfg cs
  omega

/-- The enumerate loop of _tree_structure: n the number of sorted
entries, i the index of the head of the remaining list. -/
def renderEntries (cfg : Config) (n i : Nat) (pre : String) :
    List Entry → List String
  | [] => []
  | e :: rest =>
    let connector := if i = n - 1 then CORNER_STRING else FORK_STRING
    let line := entryLine cfg pre connector e
    let sub : List String :=
      match e with
      | .dir _ _ cs2 =>
        tree_structure cfg cs2
          (pre ++ (if i = n - 1 then SPACE_STRING else WALL_STRING))
      | .file _ _ _ => []
    line :: (sub ++ renderEntries cfg n (i + 1) pre rest)
termination_by es => 2 * sizeOf es
decreasing_by
  all_goals simp
  all_goals omega

end

/-- The subtree block an entry contributes after its own line: the
recursive rendering for a directory, nothing for a file. -/
def entrySubtree (cfg : Config) (e : Entry) (pre2 : String) : List String :=
  match e with
  | .dir _ _ cs2 => tree_structure cfg cs2 pre2
  | .file _ _ _ => []

/-! ### draw: root line, output assembly, export -/

/-- Lines 177-186 of draw: the root line, built from the root's own name
with no filtering, annotated like a directory entry. -/
def rootLine (cfg : Config) (root : Entry) : String :=
  let root_modified_time := if cfg.show_modified_time then root.mtime else ""
  let root_size := if cfg.show_size then get_directory_size root else ""
  let line := foreBLUE ++ root.name ++ "/"
  if root_modified_time ≠ "" ∨ root_size ≠ "" then
    let line2 := if root_modified_time ≠ "" then
      line ++ " " ++ foreWHITE ++ "[Modified: " ++ root_modified_time ++ "]"
      else line
    let line3 := if root_size ≠ "" then
      line2 ++ " " ++ foreWHITE ++ "[Size: " ++ root_size ++ "]" else line2
    line3
  else line

/-- The full list of rendered lines: root line followed by the recursive
tree of the root's children. -/
def drawLines (cfg : Config) (root : Entry) : List String :=
  rootLine cfg root :: tree_structure cfg root.children ""

/-- Python '\n'.join. -/
def joinLines : List String → String
  | [] => ""
  | [l] => l
  | l :: ls => l ++ "\n" ++ joinLines ls

/-- Python str.replace(pat, rep) on character lists: replace each
non-overlapping occurrence left to right (faithful for the non-empty
patterns the renderer uses). -/
def replaceAll (pat rep : List Char) : List Char → List Char
  | [] => []
  | c :: cs =>
    if h : pat ≠ [] ∧ pat.isPrefixOf (c :: cs) then
      rep ++ replaceAll pat rep ((c :: cs).drop pat.length)
    else c :: replaceAll pat rep cs
termination_by s => s.length
decreasing_by
  · obtain ⟨h1, h2⟩ := h
    have hp : 0 < pat.length := List.length_pos.mpr h1
    simp
    omega
  · simp only [List.length_cons]
    omega

/-- Line 195 at the character level: strip BLUE, then GREEN, then WHITE. -/
def stripData (d : List Char) : List Char :=
  replaceAll foreWHITE.data []
    (replaceAll foreGREEN.data [] (replaceAll foreBLUE.data [] d))

/-- Line 195: output.replace(BLUE, '').replace(GREEN, '').replace(WHITE, ''). -/
def stripColors (s : String) : String :=
  String.mk (stripData s.data)

/-- The observable outcome of a successful draw call: the returned
string, everything printed (in order), and the exported file as
(path, content) when a save destination was given. -/
structure DrawResult where
  returned : String
  printed : List String
  savedFile : Option (String × String)

/-- TreeDrawer.draw.  A root that is not a directory raises ValueError
before any output exists; otherwise the joined styled text is optionally
exported (color codes stripped) to save_path/tree_structure.txt with a
confirmation print, and is returned or printed according to as_string. -/
def draw (cfg : Config) (root : Entry) (as_string : Bool)
    (save_path : Option String) : Except String DrawResult :=
  if root.is_dir = false then
    Except.error "The specified path is not a directory."
  else
    let output := joinLines (drawLines cfg root)
    let saved : Option (String × String) :=
      match save_path with
      | some p => some (p ++ "/tree_structure.txt", stripColors output)
      | none => none
    let saveMsg : List String :=
      match save_path with
      | some p => ["Tree structure saved to " ++ (p ++ "/tree_structure.txt")]
      | none => []
    if as_string then Except.ok ⟨output, saveMsg, saved⟩
    else Except.ok ⟨"", saveMsg ++ [output], saved⟩

end TreeDrawer

namespace TreeDrawer

/-! ### Spec-side definitions used by refinement claims -/

mutual

/-- Spec-side aggregate ("Directory aggregate size = sum of sizes of
every file reachable under it, recursively"): a file contributes its own
size, a directory the sum over its children. -/
def specAggregate : Entry → Nat
  | .file _ _ sz => sz
  | .dir _ _ cs => specAggregateList cs

/-- Sum of specAggregate over a list of entries. -/
def specAggregateList : List Entry → Nat
  | [] => 0
  | e :: es => specAggregate e + specAggregateList es

end

theorem totalBytes_eq : ∀ cs : List Entry, totalBytesUnder cs = specAggregateList cs
  | [] => by simp [totalBytesUnder, rglobAll, specAggregateList]
  | (Entry.file nm mt sz) :: es => by
    have ih := totalBytes_eq es
    simp [totalBytesUnder, rglobAll, specAggregateList, specAggregate,
      Entry.is_file, Entry.byteSize, List.filter_cons] at *
    omega
  | (Entry.dir nm mt cs2) :: es => by
    have ih1 := totalBytes_eq cs2
    have ih2 := totalBytes_eq es
    simp [totalBytesUnder, rglobAll, specAggregateList, specAggregate,
      Entry.is_file, List.filter_cons, List.filter_append, List.sum_append] at *
    omega
termination_by cs => sizeOf cs
decreasing_by
  all_goals simp
  all_goals omega

end TreeDrawer

namespace TreeDrawer

theorem get_size_ne_empty (n : Nat) : get_size n ≠ "" := by
  have hx : ∃ X : String, get_size n = "(" ++ X := by
    unfold get_size
    split_ifs <;> exact ⟨_, rfl⟩
  obtain ⟨X, hX⟩ := hx
  rw [hX]
  intro hc
  have hlen := congrArg String.length hc
  simp [String.length_append] at hlen
  have h1 : "(".length = 1 := rfl
  omega

theorem get_directory_size_eq (nm mt : String) (cs : List Entry) :
    get_directory_size (Entry.dir nm mt cs) = get_size (specAggregate (Entry.dir nm mt cs)) := by
  simp [get_directory_size, Entry.children, totalBytes_eq, specAggregate]

end TreeDrawer

namespace TreeDrawer

/-- C6: for every directory, the aggregate size displayed when showSize
is enabled equals _get_size of the exact sum of the byte sizes of all
files reachable anywhere beneath it (specAggregate, written from the
spec); neither side takes the ignore patterns or the showFiles and
showHidden flags as input, so the total counts filtered-out and hidden
files alike, and the rendered line of the directory embeds exactly that
string. -/
theorem claim6_aggregate_size (nm mt : String) (cs : List Entry)
    (cfg : Config) (pre connector : String) (hs : cfg.show_size = true) :
    get_directory_size (Entry.dir nm mt cs)
      = get_size (specAggregate (Entry.dir nm mt cs))
    ∧ ∃ a : String, entryLine cfg pre connector (Entry.dir nm mt cs)
        = a ++ "[Size: " ++ get_size (specAggregate (Entry.dir nm mt cs)) ++ "]" := by
  have hne : get_directory_size (Entry.dir nm mt cs) ≠ "" := by
    rw [get_directory_size]; exact get_size_ne_empty _
  refine ⟨get_directory_size_eq nm mt cs, ?_⟩
  rw [← get_directory_size_eq nm mt cs]
  simp only [entryLine]
  simp [hs, hne]
  exact ⟨_, rfl⟩

/-- C6 witness: a directory whose only content is a hidden file of 5
bytes, rendered with every filter active (ignore '*', no files, no
hidden): the displayed aggregate still counts the 5 bytes. -/
theorem claim6_witness :
    (⟨["*"], false, false, true, false⟩ : Config).show_size = true ∧
    (get_directory_size (Entry.dir "d" "" [Entry.file ".h" "" 5])
        = get_size (specAggregate (Entry.dir "d" "" [Entry.file ".h" "" 5]))
      ∧ ∃ a : String,
          entryLine ⟨["*"], false, false, true, false⟩ "" CORNER_STRING
              (Entry.dir "d" "" [Entry.file ".h" "" 5])
            = a ++ "[Size: "
                ++ get_size (specAggregate (Entry.dir "d" "" [Entry.file ".h" "" 5]))
                ++ "]") :=
  ⟨rfl, claim6_aggregate_size "d" "" [Entry.file ".h" "" 5]
    ⟨["*"], false, false, true, false⟩ "" CORNER_STRING rfl⟩

theorem rhe1024_upper (N : Nat) : N ≤ 1024 * roundHalfEven N 1024 + 512 := by
  have hdm : 1024 * (N / 1024) + N % 1024 = N := Nat.div_add_mod _ _
  have hrl : N % 1024 < 1024 := Nat.mod_lt _ (by norm_num)
  rw [roundHalfEven]
  split_ifs <;> omega

theorem rhe1024_lower (N : Nat) : 1024 * roundHalfEven N 1024 ≤ N + 512 := by
  have hdm : 1024 * (N / 1024) + N % 1024 = N := Nat.div_add_mod _ _
  have hrl : N % 1024 < 1024 := Nat.mod_lt _ (by norm_num)
  rw [roundHalfEven]
  split_ifs <;> omega

theorem rhe1024_tie (N : Nat) :
    (N = 1024 * roundHalfEven N 1024 + 512 ∨
      1024 * roundHalfEven N 1024 = N + 512) →
    roundHalfEven N 1024 % 2 = 0 := by
  have hdm : 1024 * (N / 1024) + N % 1024 = N := Nat.div_add_mod _ _
  have hrl : N % 1024 < 1024 := Nat.mod_lt _ (by norm_num)
  rw [roundHalfEven]
  split_ifs <;> intro hc <;> omega

theorem rhe1048576_upper (N : Nat) :
    N ≤ 1048576 * roundHalfEven N 1048576 + 524288 := by
  have hdm : 1048576 * (N / 1048576) + N % 1048576 = N := Nat.div_add_mod _ _
  have hrl : N % 1048576 < 1048576 := Nat.mod_lt _ (by norm_num)
  rw [roundHalfEven]
  split_ifs <;> omega

theorem rhe1048576_lower (N : Nat) :
    1048576 * roundHalfEven N 1048576 ≤ N + 524288 := by
  have hdm : 1048576 * (N / 1048576) + N % 1048576 = N := Nat.div_add_mod _ _
  have hrl : N % 1048576 < 1048576 := Nat.mod_lt _ (by norm_num)
  rw [roundHalfEven]
  split_ifs <;> omega

theorem rhe1048576_tie (N : Nat) :
    (N = 1048576 * roundHalfEven N 1048576 + 524288 ∨
      1048576 * roundHalfEven N 1048576 = N + 524288) →
    roundHalfEven N 1048576 % 2 = 0 := by
  have hdm : 1048576 * (N / 1048576) + N % 1048576 = N := Nat.div_add_mod _ _
  have hrl : N % 1048576 < 1048576 := Nat.mod_lt _ (by norm_num)
  rw [roundHalfEven]
  split_ifs <;> intro hc <;> omega

theorem get_size_B_rule (n : Nat) (h : n < 1024) :
    get_size n = "(" ++ toString n ++ " B)" := by
  rw [get_size, if_pos h]

theorem get_size_KB_rule (n : Nat) (h1 : 1024 ≤ n) (h2 : n < 1048576) :
    ∃ t : Nat,
      get_size n
        = "(" ++ (toString (t / 10) ++ "." ++ toString (t % 10)) ++ " KB)" ∧
      10 * n ≤ 1024 * t + 512 ∧ 1024 * t ≤ 10 * n + 512 ∧
      ((10 * n = 1024 * t + 512 ∨ 1024 * t = 10 * n + 512) → t % 2 = 0) := by
  refine ⟨roundHalfEven (10 * n) 1024,
    ?_, rhe1024_upper (10 * n), rhe1024_lower (10 * n), rhe1024_tie (10 * n)⟩
  rw [get_size, if_neg (by omega), if_pos (by omega)]
  rfl

theorem get_size_MB_rule (n : Nat) (h1 : 1048576 ≤ n) :
    ∃ t : Nat,
      get_size n
        = "(" ++ (toString (t / 10) ++ "." ++ toString (t % 10)) ++ " MB)" ∧
      10 * n ≤ 1048576 * t + 524288 ∧ 1048576 * t ≤ 10 * n + 524288 ∧
      ((10 * n = 1048576 * t + 524288 ∨ 1048576 * t = 10 * n + 524288) →
        t % 2 = 0) := by
  refine ⟨roundHalfEven (10 * n) 1048576,
    ?_, rhe1048576_upper (10 * n), rhe1048576_lower (10 * n),
    rhe1048576_tie (10 * n)⟩
  rw [get_size, if_neg (by omega), if_neg (by omega)]
  rfl

set_option maxHeartbeats 1600000 in
/-- C7: _get_size maps n < 1024 to the integer byte count with unit B,
1024 <= n < 1048576 to n/1024 rounded to one decimal (ties to even, the
float format's behaviour) with unit KB, and larger n to n/1048576 with
unit MB; in particular 0, 1023, 1024 and 1048576 render as "(0 B)",
"(1023 B)", "(1.0 KB)" and "(1.0 MB)".  The rounded tenths value t is
characterised abstractly: 10*n/den lies within half a unit of t, with
ties resolved to even t. -/
theorem claim7_get_size_tiers :
    get_size 0 = "(0 B)" ∧ get_size 1023 = "(1023 B)" ∧
    get_size 1024 = "(1.0 KB)" ∧ get_size 1048576 = "(1.0 MB)" ∧
    (∀ n : Nat, n < 1024 → get_size n = "(" ++ toString n ++ " B)") ∧
    (∀ n : Nat, 1024 ≤ n → n < 1048576 →
      ∃ t : Nat,
        get_size n
          = "(" ++ (toString (t / 10) ++ "." ++ toString (t % 10)) ++ " KB)" ∧
        10 * n ≤ 1024 * t + 512 ∧ 1024 * t ≤ 10 * n + 512 ∧
        ((10 * n = 1024 * t + 512 ∨ 1024 * t = 10 * n + 512) → t % 2 = 0)) ∧
    (∀ n : Nat, 1048576 ≤ n →
      ∃ t : Nat,
        get_size n
          = "(" ++ (toString (t / 10) ++ "." ++ toString (t % 10)) ++ " MB)" ∧
        10 * n ≤ 1048576 * t + 524288 ∧ 1048576 * t ≤ 10 * n + 524288 ∧
        ((10 * n = 1048576 * t + 524288 ∨ 1048576 * t = 10 * n + 524288) →
          t % 2 = 0)) :=
  ⟨by decide, by decide, by decide, by decide,
    get_size_B_rule, get_size_KB_rule, get_size_MB_rule⟩

/-- C7 witness: the tier rules applied at 500 bytes, 2 KiB and 2 MiB. -/
theorem claim7_witness :
    (500 < 1024 ∧ get_size 500 = "(" ++ toString 500 ++ " B)") ∧
    (∃ t : Nat,
      get_size 2048
        = "(" ++ (toString (t / 10) ++ "." ++ toString (t % 10)) ++ " KB)" ∧
      10 * 2048 ≤ 1024 * t + 512 ∧ 1024 * t ≤ 10 * 2048 + 512 ∧
      ((10 * 2048 = 1024 * t + 512 ∨ 1024 * t = 10 * 2048 + 512) →
        t % 2 = 0)) ∧
    (∃ t : Nat,
      get_size 2097152
        = "(" ++ (toString (t / 10) ++ "." ++ toString (t % 10)) ++ " MB)" ∧
      10 * 2097152 ≤ 1048576 * t + 524288 ∧
      1048576 * t ≤ 10 * 2097152 + 524288 ∧
      ((10 * 2097152 = 1048576 * t + 524288 ∨
        1048576 * t = 10 * 2097152 + 524288) → t % 2 = 0)) :=
  ⟨⟨by omega, claim7_get_size_tiers.2.2.2.2.1 500 (by omega)⟩,
    claim7_get_size_tiers.2.2.2.2.2.1 2048 (by omega) (by omega),
    claim7_get_size_tiers.2.2.2.2.2.2 2097152 (by omega)⟩

/-- C8: when the configured root is not a directory, draw fails with the
invalid-argument error before building any output: no return value, no
print, and no export file, for every combination of asString and
savePath. -/
theorem claim8_invalid_root (cfg : Config) (root : Entry) (as_string : Bool)
    (save_path : Option String) (h : root.is_dir = false) :
    draw cfg root as_string save_path
      = Except.error "The specified path is not a directory." := by
  rw [draw.eq_def, if_pos h]

/-- C8 witness: drawing with a plain file as root fails identically for
both output modes and with or without a save destination. -/
theorem claim8_witness :
    (Entry.file "f" "" 3).is_dir = false ∧
    draw ⟨[], true, false, false, false⟩ (Entry.file "f" "" 3) true none
      = Except.error "The specified path is not a directory." ∧
    draw ⟨[], true, true, true, true⟩ (Entry.file "f" "" 3) false (some "out")
      = Except.error "The specified path is not a directory." :=
  ⟨rfl, claim8_invalid_root _ _ _ _ rfl, claim8_invalid_root _ _ _ _ rfl⟩

end TreeDrawer

namespace TreeDrawer

theorem renderEntries_nil (cfg : Config) (n i : Nat) (pre : String) :
    renderEntries cfg n i pre [] = [] := by
  rw [renderEntries.eq_def]

theorem renderEntries_cons (cfg : Config) (n i : Nat) (pre : String)
    (e : Entry) (rest : List Entry) :
    renderEntries cfg n i pre (e :: rest)
      = entryLine cfg pre (if i = n - 1 then CORNER_STRING else FORK_STRING) e
        :: (entrySubtree cfg e
              (pre ++ (if i = n - 1 then SPACE_STRING else WALL_STRING))
            ++ renderEntries cfg n (i + 1) pre rest) := by
  rw [renderEntries.eq_def]
  cases e <;> simp [entrySubtree]

theorem tree_structure_def (cfg : Config) (cs : List Entry) (pre : String) :
    tree_structure cfg cs pre
      = renderEntries cfg (orderEntries cfg cs).length 0 pre
          (orderEntries cfg cs) := by
  rw [tree_structure]

theorem renderEntries_shape (cfg : Config) :
    ∀ (init : List Entry) (last : Entry) (i n : Nat) (pre : String),
      n = i + (init ++ [last]).length →
      renderEntries cfg n i pre (init ++ [last])
        = (init.map (fun e =>
            entryLine cfg pre FORK_STRING e
              :: entrySubtree cfg e (pre ++ WALL_STRING))).flatten
          ++ (entryLine cfg pre CORNER_STRING last
              :: entrySubtree cfg last (pre ++ SPACE_STRING))
  | [], last, i, n, pre, hn => by
    have hi : i = n - 1 := by simp at hn; omega
    rw [List.nil_append, renderEntries_cons, if_pos hi, if_pos hi,
      renderEntries_nil]
    simp
  | e :: init2, last, i, n, pre, hn => by
    have hi : ¬ i = n - 1 := by simp at hn; omega
    have ih := renderEntries_shape cfg init2 last (i + 1) n pre
      (by simp at hn ⊢; omega)
    rw [List.cons_append, renderEntries_cons, if_neg hi, if_neg hi, ih]
    simp

theorem tree_structure_empty (cfg : Config) (cs : List Entry) (pre : String)
    (h : orderEntries cfg cs = []) : tree_structure cfg cs pre = [] := by
  rw [tree_structure_def, h, renderEntries_nil]

theorem tree_structure_shape (cfg : Config) (cs : List Entry) (pre : String)
    (hne : orderEntries cfg cs ≠ []) :
    tree_structure cfg cs pre
      = ((orderEntries cfg cs).dropLast.map (fun e =>
          entryLine cfg pre FORK_STRING e
            :: entrySubtree cfg e (pre ++ WALL_STRING))).flatten
        ++ (entryLine cfg pre CORNER_STRING ((orderEntries cfg cs).getLast hne)
            :: entrySubtree cfg ((orderEntries cfg cs).getLast hne)
                (pre ++ SPACE_STRING)) := by
  rw [tree_structure_def]
  have hsplit := List.dropLast_append_getLast hne
  calc renderEntries cfg (orderEntries cfg cs).length 0 pre (orderEntries cfg cs)
      = renderEntries cfg (orderEntries cfg cs).length 0 pre
          ((orderEntries cfg cs).dropLast
            ++ [(orderEntries cfg cs).getLast hne]) := by
        rw [hsplit]
    _ = _ := by
        rw [renderEntries_shape cfg _ _ 0 _ pre]
        rw [hsplit]
        simp

end TreeDrawer

namespace TreeDrawer

theorem entryLine_head (cfg : Config) (pre conn : String) (e : Entry) :
    ∃ t : String, entryLine cfg pre conn e = (pre ++ conn) ++ t := by
  cases e <;> simp only [entryLine] <;> split_ifs <;>
    (simp only [String.append_assoc]; exact ⟨_, rfl⟩)

theorem fork_head_ne_corner_head (pre t t2 : String) :
    (pre ++ FORK_STRING) ++ t ≠ (pre ++ CORNER_STRING) ++ t2 := by
  intro hc
  have hd := congrArg String.data hc
  simp only [String.data_append, List.append_assoc] at hd
  have hd2 := List.append_cancel_left hd
  have hlen : FORK_STRING.data.length = CORNER_STRING.data.length := by decide
  have := (List.append_inj hd2 hlen).1
  exact absurd this (by decide)

end TreeDrawer

namespace TreeDrawer

/-- C1: whenever a directory's filtered child list is non-empty, its
rendering decomposes into one block per child in sorted order; the label
lines of all children but the last are built with the branch connector,
the last child's label line with the corner connector, a corner label
always begins with prefix ++ corner, a branch label never does, and a
branch label always begins with prefix ++ branch. -/
theorem claim1_connector (cfg : Config) (cs : List Entry) (pre : String)
    (hne : orderEntries cfg cs ≠ []) :
    ∃ blocks : List (String × List String),
      tree_structure cfg cs pre = (blocks.map (fun b => b.1 :: b.2)).flatten
      ∧ blocks.map Prod.fst
          = (orderEntries cfg cs).dropLast.map
              (fun e => entryLine cfg pre FORK_STRING e)
            ++ [entryLine cfg pre CORNER_STRING
                  ((orderEntries cfg cs).getLast hne)]
      ∧ (∀ e : Entry, ∃ t : String,
          entryLine cfg pre CORNER_STRING e = (pre ++ CORNER_STRING) ++ t)
      ∧ (∀ (e : Entry) (t : String),
          entryLine cfg pre FORK_STRING e ≠ (pre ++ CORNER_STRING) ++ t)
      ∧ (∀ e : Entry, ∃ t : String,
          entryLine cfg pre FORK_STRING e = (pre ++ FORK_STRING) ++ t) := by
  refine ⟨(orderEntries cfg cs).dropLast.map
      (fun e => (entryLine cfg pre FORK_STRING e,
        entrySubtree cfg e (pre ++ WALL_STRING)))
    ++ [(entryLine cfg pre CORNER_STRING ((orderEntries cfg cs).getLast hne),
        entrySubtree cfg ((orderEntries cfg cs).getLast hne)
          (pre ++ SPACE_STRING))], ?_, ?_, ?_, ?_, ?_⟩
  · rw [tree_structure_shape cfg cs pre hne]
    simp [List.map_map, Function.comp_def]
  · simp [List.map_map, Function.comp_def]
  · intro e
    exact entryLine_head cfg pre CORNER_STRING e
  · intro e t hc
    obtain ⟨t2, ht2⟩ := entryLine_head cfg pre FORK_STRING e
    rw [ht2] at hc
    exact fork_head_ne_corner_head pre t2 t hc
  · intro e
    exact entryLine_head cfg pre FORK_STRING e

/-- C1 witness: two files under a root with no filters; the sorted order
is a then b, the corner connector goes to b alone. -/
theorem claim1_witness :
    orderEntries ⟨[], true, false, false, false⟩
        [Entry.file "b" "" 1, Entry.file "a" "" 2] ≠ [] ∧
    (∃ blocks : List (String × List String),
      tree_structure ⟨[], true, false, false, false⟩
          [Entry.file "b" "" 1, Entry.file "a" "" 2] ""
        = (blocks.map (fun b => b.1 :: b.2)).flatten
      ∧ blocks.map Prod.fst
          = (orderEntries ⟨[], true, false, false, false⟩
                [Entry.file "b" "" 1, Entry.file "a" "" 2]).dropLast.map
              (fun e => entryLine ⟨[], true, false, false, false⟩ ""
                FORK_STRING e)
            ++ [entryLine ⟨[], true, false, false, false⟩ "" CORNER_STRING
                  ((orderEntries ⟨[], true, false, false, false⟩
                      [Entry.file "b" "" 1, Entry.file "a" "" 2]).getLast
                    (List.ne_nil_of_length_pos (by decide)))]
      ∧ (∀ e : Entry, ∃ t : String,
          entryLine ⟨[], true, false, false, false⟩ "" CORNER_STRING e
            = ("" ++ CORNER_STRING) ++ t)
      ∧ (∀ (e : Entry) (t : String),
          entryLine ⟨[], true, false, false, false⟩ "" FORK_STRING e
            ≠ ("" ++ CORNER_STRING) ++ t)
      ∧ (∀ e : Entry, ∃ t : String,
          entryLine ⟨[], true, false, false, false⟩ "" FORK_STRING e
            = ("" ++ FORK_STRING) ++ t)) :=
  ⟨List.ne_nil_of_length_pos (by decide),
    claim1_connector ⟨[], true, false, false, false⟩
      [Entry.file "b" "" 1, Entry.file "a" "" 2] ""
      (List.ne_nil_of_length_pos (by decide))⟩

end TreeDrawer

namespace TreeDrawer

theorem sizeOf_list_pos (cs : List Entry) : 1 ≤ sizeOf cs := by
  cases cs <;> simp <;> omega

theorem tree_structure_line_head (cfg : Config) :
    ∀ (N : Nat) (cs : List Entry), sizeOf cs ≤ N →
    ∀ (pre l : String), l ∈ tree_structure cfg cs pre → ∃ t, l = pre ++ t := by
  intro N
  induction N with
  | zero =>
    intro cs h
    exfalso
    have := sizeOf_list_pos cs
    omega
  | succ N ih =>
    intro cs h pre l hl
    by_cases horder : orderEntries cfg cs = []
    · rw [tree_structure_empty cfg cs pre horder] at hl
      simp at hl
    · have hsub_head : ∀ e ∈ orderEntries cfg cs, ∀ (q l2 : String),
          l2 ∈ entrySubtree cfg e q → ∃ t, l2 = q ++ t := by
        intro e he q l2 hl2
        match e with
        | Entry.file nm mt sz => simp [entrySubtree] at hl2
        | Entry.dir nm mt cs2 =>
          have h1 := sizeOf_lt_of_mem_orderEntries he
          have h2 : sizeOf cs2 < sizeOf (Entry.dir nm mt cs2) := by
            simp
            try omega
          exact ih cs2 (by omega) q l2 hl2
      rw [tree_structure_shape cfg cs pre horder] at hl
      rw [List.mem_append] at hl
      rcases hl with hl | hl
      · rw [List.mem_flatten] at hl
        obtain ⟨block, hbl, hlb⟩ := hl
        rw [List.mem_map] at hbl
        obtain ⟨e, he, rfl⟩ := hbl
        have hemem : e ∈ orderEntries cfg cs :=
          (List.dropLast_sublist _).subset he
        rcases List.mem_cons.mp hlb with rfl | hsub
        · obtain ⟨t, ht⟩ := entryLine_head cfg pre FORK_STRING e
          exact ⟨FORK_STRING ++ t, by rw [ht, String.append_assoc]⟩
        · obtain ⟨t, ht⟩ := hsub_head e hemem (pre ++ WALL_STRING) l hsub
          exact ⟨WALL_STRING ++ t, by rw [ht, String.append_assoc]⟩
      · have hlast : (orderEntries cfg cs).getLast horder ∈ orderEntries cfg cs :=
          List.getLast_mem horder
        rcases List.mem_cons.mp hl with rfl | hsub
        · obtain ⟨t, ht⟩ := entryLine_head cfg pre CORNER_STRING _
          exact ⟨CORNER_STRING ++ t, by rw [ht, String.append_assoc]⟩
        · obtain ⟨t, ht⟩ := hsub_head _ hlast (pre ++ SPACE_STRING) l hsub
          exact ⟨SPACE_STRING ++ t, by rw [ht, String.append_assoc]⟩

/-- C2: the rendering of a directory's children decomposes into the
label line plus recursively rendered subtree of each sorted child, where
the subtree of every child except the last is rendered with the prefix
extended by the wall segment and the last child's subtree with the
prefix extended by the space segment; and every line of any rendered
subtree begins with the prefix it was rendered with, so each descendant
line carries the wall or space segment at that ancestor position. -/
theorem claim2_prefix_extension (cfg : Config) (cs : List Entry)
    (pre : String) (hne : orderEntries cfg cs ≠ []) :
    (tree_structure cfg cs pre
      = ((orderEntries cfg cs).dropLast.map (fun e =>
          entryLine cfg pre FORK_STRING e
            :: entrySubtree cfg e (pre ++ WALL_STRING))).flatten
        ++ (entryLine cfg pre CORNER_STRING ((orderEntries cfg cs).getLast hne)
            :: entrySubtree cfg ((orderEntries cfg cs).getLast hne)
                (pre ++ SPACE_STRING)))
    ∧ ∀ (e : Entry) (q l : String), l ∈ entrySubtree cfg e q →
        ∃ t, l = q ++ t := by
  refine ⟨tree_structure_shape cfg cs pre hne, ?_⟩
  intro e q l hl
  match e with
  | Entry.file nm mt sz => simp [entrySubtree] at hl
  | Entry.dir nm mt cs2 =>
    exact tree_structure_line_head cfg (sizeOf cs2) cs2 le_rfl q l hl

/-- C2 witness: a directory and a file under the root; the directory is
first (non-last) so its subtree is rendered with the wall-extended
prefix, and every subtree line extends its own prefix. -/
theorem claim2_witness :
    orderEntries ⟨[], true, false, false, false⟩
        [Entry.file "b" "" 1, Entry.dir "a" "" [Entry.file "x" "" 2]] ≠ [] ∧
    ((tree_structure ⟨[], true, false, false, false⟩
          [Entry.file "b" "" 1, Entry.dir "a" "" [Entry.file "x" "" 2]] "p"
        = ((orderEntries ⟨[], true, false, false, false⟩
              [Entry.file "b" "" 1,
                Entry.dir "a" "" [Entry.file "x" "" 2]]).dropLast.map (fun e =>
            entryLine ⟨[], true, false, false, false⟩ "p" FORK_STRING e
              :: entrySubtree ⟨[], true, false, false, false⟩ e
                  ("p" ++ WALL_STRING))).flatten
          ++ (entryLine ⟨[], true, false, false, false⟩ "p" CORNER_STRING
                ((orderEntries ⟨[], true, false, false, false⟩
                    [Entry.file "b" "" 1,
                      Entry.dir "a" "" [Entry.file "x" "" 2]]).getLast
                  (List.ne_nil_of_length_pos (by decide)))
              :: entrySubtree ⟨[], true, false, false, false⟩
                  ((orderEntries ⟨[], true, false, false, false⟩
                      [Entry.file "b" "" 1,
                        Entry.dir "a" "" [Entry.file "x" "" 2]]).getLast
                    (List.ne_nil_of_length_pos (by decide)))
                  ("p" ++ SPACE_STRING)))
      ∧ ∀ (e : Entry) (q l : String),
          l ∈ entrySubtree ⟨[], true, false, false, false⟩ e q →
          ∃ t, l = q ++ t) :=
  ⟨List.ne_nil_of_length_pos (by decide),
    claim2_prefix_extension ⟨[], true, false, false, false⟩
      [Entry.file "b" "" 1, Entry.dir "a" "" [Entry.file "x" "" 2]] "p"
      (List.ne_nil_of_length_pos (by decide))⟩

end TreeDrawer

namespace TreeDrawer

theorem is_dir_eq_not_is_file (e : Entry) : e.is_dir = !e.is_file := by
  cases e <;> rfl

theorem nodup_names_orderEntries {cfg : Config} {cs : List Entry}
    (hnd : (cs.map Entry.name).Nodup) :
    ((orderEntries cfg cs).map Entry.name).Nodup := by
  have hperm : (orderEntries cfg cs).Perm (filterEntries cfg cs) :=
    List.perm_insertionSort entryRel (filterEntries cfg cs)
  have hsub : List.Sublist (filterEntries cfg cs) cs := by
    unfold filterEntries
    dsimp only
    cases hf : cfg.show_files <;> cases hh : cfg.show_hidden <;> simp <;>
      first
        | exact ((List.filter_sublist _).trans
            (List.filter_sublist _)).trans (List.filter_sublist _)
        | exact (List.filter_sublist _).trans (List.filter_sublist _)
        | exact List.filter_sublist _
  have h2 : ((filterEntries cfg cs).map Entry.name).Nodup :=
    hnd.sublist (hsub.map Entry.name)
  exact (hperm.map Entry.name).nodup_iff.mpr h2

/-- C3: in the filtered and sorted listing that _tree_structure renders,
every directory entry precedes every file entry, and two entries of the
same kind appear in strictly increasing code-point order of their names
(given that the listing, like any real directory, has no duplicate
names). -/
theorem claim3_ordering (cfg : Config) (cs : List Entry)
    (hnd : (cs.map Entry.name).Nodup) :
    List.Pairwise (fun a b : Entry =>
      (b.is_dir = true → a.is_dir = true)
      ∧ (a.is_file = b.is_file → strLtb a.name.data b.name.data = true))
      (orderEntries cfg cs) := by
  have hsorted : List.Pairwise entryRel (orderEntries cfg cs) :=
    List.sorted_insertionSort entryRel (filterEntries cfg cs)
  have hne : List.Pairwise (fun a b : Entry => a.name ≠ b.name)
      (orderEntries cfg cs) :=
    List.pairwise_map.mp (nodup_names_orderEntries hnd)
  refine (hsorted.and hne).imp ?_
  rintro a b ⟨hrel, hname⟩
  constructor
  · intro hbdir
    rcases hrel with hlt | ⟨heq, _⟩
    · exfalso
      rw [is_dir_eq_not_is_file] at hbdir
      cases hb : b.is_file
      · rw [hb] at hlt
        simp [Bool.toNat] at hlt
      · rw [hb] at hbdir
        simp at hbdir
    · rw [is_dir_eq_not_is_file] at hbdir ⊢
      rw [heq]
      exact hbdir
  · intro hkind
    rcases hrel with hlt | ⟨_, hle⟩
    · exfalso
      rw [hkind] at hlt
      omega
    · refine strLtb_of_leb_ne _ _ hle ?_
      intro hc
      exact hname (String.ext hc)

/-- C3 witness: a mixed listing (two files, one directory) with default
config sorts the directory first and the files after it in name order. -/
theorem claim3_witness :
    (([Entry.file "b" "" 1, Entry.dir "c" "" [], Entry.file "a" "" 2].map
        Entry.name).Nodup) ∧
    List.Pairwise (fun a b : Entry =>
      (b.is_dir = true → a.is_dir = true)
      ∧ (a.is_file = b.is_file → strLtb a.name.data b.name.data = true))
      (orderEntries ⟨[], true, false, false, false⟩
        [Entry.file "b" "" 1, Entry.dir "c" "" [], Entry.file "a" "" 2]) :=
  ⟨by decide,
    claim3_ordering ⟨[], true, false, false, false⟩
      [Entry.file "b" "" 1, Entry.dir "c" "" [], Entry.file "a" "" 2]
      (by decide)⟩

end TreeDrawer

namespace TreeDrawer

theorem mem_filterEntries_iff {cfg : Config} {cs : List Entry} {e : Entry} :
    e ∈ filterEntries cfg cs
      ↔ e ∈ cs ∧ is_ignored cfg e.name = false
        ∧ (cfg.show_files = true ∨ e.is_dir = true)
        ∧ (cfg.show_hidden = true ∨ is_hidden e.name = false) := by
  unfold filterEntries
  dsimp only
  cases hf : cfg.show_files <;> cases hh : cfg.show_hidden <;>
    simp [hf, hh, List.mem_filter] <;> tauto

theorem mem_orderEntries_iff {cfg : Config} {cs : List Entry} {e : Entry} :
    e ∈ orderEntries cfg cs
      ↔ e ∈ cs ∧ is_ignored cfg e.name = false
        ∧ (cfg.show_files = true ∨ e.is_dir = true)
        ∧ (cfg.show_hidden = true ∨ is_hidden e.name = false) :=
  ((List.perm_insertionSort entryRel _).mem_iff).trans mem_filterEntries_iff

end TreeDrawer

namespace TreeDrawer

mutual

/-- The names of the entries whose lines _tree_structure emits for a
directory listing, in emission order (one per rendered line). -/
def structureNames (cfg : Config) (cs : List Entry) : List String :=
  namesOf cfg (orderEntries cfg cs)
termination_by 2 * sizeOf cs + 1
decreasing_by
  have := sizeOf_orderEntries_le cfg cs
  omega

/-- The names contributed by a list of already filtered and sorted
entries: each entry's own name followed by the names of its rendered
subtree. -/
def namesOf (cfg : Config) : List Entry → List String
  | [] => []
  | e :: rest =>
    e.name
      :: ((match e with
           | .dir _ _ cs2 => structureNames cfg cs2
           | .file _ _ _ => []) ++ namesOf cfg rest)
termination_by es => 2 * sizeOf es
decreasing_by
  all_goals simp
  all_goals omega

end

/-- The names an entry's rendered subtree contributes after its own
line. -/
def entryNames (cfg : Config) (e : Entry) : List String :=
  match e with
  | .dir _ _ cs2 => structureNames cfg cs2
  | .file _ _ _ => []

theorem namesOf_nil (cfg : Config) : namesOf cfg [] = [] := by
  rw [namesOf.eq_def]

theorem namesOf_cons (cfg : Config) (e : Entry) (rest : List Entry) :
    namesOf cfg (e :: rest)
      = e.name :: (entryNames cfg e ++ namesOf cfg rest) := by
  rw [namesOf.eq_def]
  cases e <;> simp [entryNames]

theorem structureNames_def (cfg : Config) (cs : List Entry) :
    structureNames cfg cs = namesOf cfg (orderEntries cfg cs) := by
  rw [structureNames]

/-- The literal occurrence of one character list inside another, with
whatever lies before and after it. -/
def strContains (sub big : List Char) : Prop :=
  ∃ s t : List Char, big = (s ++ sub) ++ t

theorem strContains_here (s sub : List Char) : strContains sub (s ++ sub) :=
  ⟨s, [], by simp⟩

theorem strContains_extend {sub a : List Char} (h : strContains sub a)
    (c : List Char) : strContains sub (a ++ c) := by
  obtain ⟨s, t, rfl⟩ := h
  exact ⟨s, t ++ c, by simp⟩

theorem strContains_self (sub : List Char) : strContains sub sub :=
  ⟨[], [], by simp⟩

theorem strContains_self_append (sub r : List Char) :
    strContains sub (sub ++ r) :=
  ⟨[], r, by simp⟩

theorem strContains_prepend {sub r : List Char} (h : strContains sub r)
    (x : List Char) : strContains sub (x ++ r) := by
  obtain ⟨s, t, rfl⟩ := h
  exact ⟨x ++ s, t, by simp⟩

theorem name_in_entryLine (cfg : Config) (pre conn : String) (e : Entry) :
    strContains e.name.data (entryLine cfg pre conn e).data := by
  cases e with
  | file nm mt sz =>
    simp only [entryLine, Entry.name]
    generalize get_size sz = gs
    split_ifs <;> simp only [String.data_append, List.append_assoc] <;>
      repeat
        first
          | exact strContains_self_append _ _
          | exact strContains_self _
          | apply strContains_prepend
  | dir nm mt cs =>
    simp only [entryLine, Entry.name]
    generalize get_directory_size (Entry.dir nm mt cs) = gds
    split_ifs <;> simp only [String.data_append, List.append_assoc] <;>
      repeat
        first
          | exact strContains_self_append _ _
          | exact strContains_self _
          | apply strContains_prepend

end TreeDrawer

namespace TreeDrawer

theorem forall2_render (cfg : Config) :
    ∀ es : List Entry,
      (∀ e ∈ es, ∀ q : String,
        List.Forall₂ (fun nm l => strContains nm.data l.data)
          (entryNames cfg e) (entrySubtree cfg e q)) →
      ∀ (n i : Nat) (pre : String),
      List.Forall₂ (fun nm l => strContains nm.data l.data)
        (namesOf cfg es) (renderEntries cfg n i pre es)
  | [], _, n, i, pre => by
    rw [namesOf_nil, renderEntries_nil]
    constructor
  | e :: rest, hsub, n, i, pre => by
    rw [namesOf_cons, renderEntries_cons]
    refine List.Forall₂.cons (name_in_entryLine cfg pre _ e) ?_
    refine List.rel_append (hsub e (by simp) _) ?_
    exact forall2_render cfg rest
      (fun e2 he2 q => hsub e2 (by simp [he2]) q) n (i + 1) pre

theorem structureNames_forall2 (cfg : Config) :
    ∀ (N : Nat) (cs : List Entry), sizeOf cs ≤ N → ∀ pre : String,
      List.Forall₂ (fun nm l => strContains nm.data l.data)
        (structureNames cfg cs) (tree_structure cfg cs pre) := by
  intro N
  induction N with
  | zero =>
    intro cs h
    exfalso
    have := sizeOf_list_pos cs
    omega
  | succ N ih =>
    intro cs h pre
    rw [structureNames_def, tree_structure_def]
    refine forall2_render cfg (orderEntries cfg cs) ?_ _ 0 pre
    intro e he q
    match e with
    | Entry.file nm mt sz =>
      simp only [entryNames, entrySubtree]
      constructor
    | Entry.dir nm mt cs2 =>
      simp only [entryNames, entrySubtree]
      have h1 := sizeOf_lt_of_mem_orderEntries he
      have h2 : sizeOf cs2 < sizeOf (Entry.dir nm mt cs2) := by
        simp
        try omega
      exact ih cs2 (by omega) q

theorem namesOf_not_hidden (cfg : Config) :
    ∀ es : List Entry,
      (∀ e ∈ es, is_hidden e.name = false) →
      (∀ e ∈ es, ∀ nm ∈ entryNames cfg e, is_hidden nm = false) →
      ∀ nm ∈ namesOf cfg es, is_hidden nm = false
  | [], _, _ => by
    rw [namesOf_nil]
    intro nm h
    simp at h
  | e :: rest, hself, hsub => by
    rw [namesOf_cons]
    intro nm hnm
    rcases List.mem_cons.mp hnm with rfl | hnm2
    · exact hself e (by simp)
    · rcases List.mem_append.mp hnm2 with hnm3 | hnm3
      · exact hsub e (by simp) nm hnm3
      · exact namesOf_not_hidden cfg rest
          (fun e2 he2 => hself e2 (by simp [he2]))
          (fun e2 he2 => hsub e2 (by simp [he2])) nm hnm3

theorem structureNames_not_hidden (cfg : Config)
    (hsh : cfg.show_hidden = false) :
    ∀ (N : Nat) (cs : List Entry), sizeOf cs ≤ N →
      ∀ nm ∈ structureNames cfg cs, is_hidden nm = false := by
  intro N
  induction N with
  | zero =>
    intro cs h
    exfalso
    have := sizeOf_list_pos cs
    omega
  | succ N ih =>
    intro cs h
    rw [structureNames_def]
    refine namesOf_not_hidden cfg (orderEntries cfg cs) ?_ ?_
    · intro e he
      rcases (mem_orderEntries_iff.mp he).2.2.2 with hcontra | hok
      · rw [hsh] at hcontra
        cases hcontra
      · exact hok
    · intro e he nm hnm
      match e, hnm with
      | Entry.file nm2 mt sz, hnm => simp [entryNames] at hnm
      | Entry.dir nm2 mt cs2, hnm =>
        simp only [entryNames] at hnm
        have h1 := sizeOf_lt_of_mem_orderEntries he
        have h2 : sizeOf cs2 < sizeOf (Entry.dir nm2 mt cs2) := by
          simp
          try omega
        exact ih cs2 (by omega) nm hnm

end TreeDrawer

namespace TreeDrawer

/-- C5 counterexample: with showHidden=false, draw on a root directory
itself named with a leading dot still prints that dotted name on the
root line — draw builds the root line from path.name with no hidden
check, so the claim fails at the root line. -/
theorem claim5_counterexample :
    drawLines ⟨[], true, false, false, false⟩ (Entry.dir ".h" "" [])
      = [foreBLUE ++ ".h" ++ "/"]
    ∧ strContains ".h".data ((foreBLUE ++ ".h" ++ "/")).data
    ∧ is_hidden ".h" = true
    ∧ (⟨[], true, false, false, false⟩ : Config).show_hidden = false := by
  refine ⟨?_, ⟨foreBLUE.data, "/".data, by decide⟩, by decide, rfl⟩
  rw [drawLines]
  simp only [Entry.children]
  rw [tree_structure_empty ⟨[], true, false, false, false⟩ [] "" (by rfl)]
  rfl

/-- C5 (amended): with showHidden=false, no entry name rendered beneath
the root starts with a dot, and each rendered line carries its entry's
name verbatim (Forall₂ pairs every emitted name with its line); the
root's own name, however, is printed unfiltered, so the guarantee holds
for every line below the root but not for the root line itself.  With
showHidden=true, dotted entries are rendered exactly when they pass the
ignore and show-files filters. -/
theorem claim5_hidden_amended (cfg : Config) (cs : List Entry)
    (pre : String) :
    (cfg.show_hidden = false →
      ∀ nm ∈ structureNames cfg cs, is_hidden nm = false)
    ∧ List.Forall₂ (fun nm l => strContains nm.data l.data)
        (structureNames cfg cs) (tree_structure cfg cs pre)
    ∧ (cfg.show_hidden = true →
        ∀ e ∈ cs, (e ∈ orderEntries cfg cs
          ↔ (is_ignored cfg e.name = false
              ∧ (cfg.show_files = true ∨ e.is_dir = true)))) := by
  refine ⟨?_, structureNames_forall2 cfg (sizeOf cs) cs le_rfl pre, ?_⟩
  · intro hsh
    exact structureNames_not_hidden cfg hsh (sizeOf cs) cs le_rfl
  · intro hsh e he
    constructor
    · intro hmem
      have h1 := mem_orderEntries_iff.mp hmem
      exact ⟨h1.2.1, h1.2.2.1⟩
    · intro ⟨hig, hkind⟩
      exact mem_orderEntries_iff.mpr ⟨he, hig, hkind, Or.inl hsh⟩

/-- C5 witness: hidden display off keeps ".a" out (only "b" is emitted,
inside its line); hidden display on admits ".a" exactly under the other
filters. -/
theorem claim5_witness :
    (⟨[], true, false, false, false⟩ : Config).show_hidden = false ∧
    is_hidden "b" = false ∧
    List.Forall₂ (fun nm l => strContains nm.data l.data)
      (structureNames ⟨[], true, false, false, false⟩
        [Entry.file ".a" "" 1, Entry.file "b" "" 2])
      (tree_structure ⟨[], true, false, false, false⟩
        [Entry.file ".a" "" 1, Entry.file "b" "" 2] "") ∧
    (Entry.file ".a" "" 1 ∈ orderEntries ⟨[], true, false, false, true⟩
        [Entry.file ".a" "" 1, Entry.file "b" "" 2]
      ↔ (is_ignored ⟨[], true, false, false, true⟩ ".a" = false
          ∧ ((⟨[], true, false, false, true⟩ : Config).show_files = true
              ∨ (Entry.file ".a" "" 1).is_dir = true))) := by
  have hsn : structureNames ⟨[], true, false, false, false⟩
      [Entry.file ".a" "" 1, Entry.file "b" "" 2] = ["b"] := by
    have horder : orderEntries ⟨[], true, false, false, false⟩
        [Entry.file ".a" "" 1, Entry.file "b" "" 2]
        = [Entry.file "b" "" 2] := rfl
    rw [structureNames_def, horder, namesOf_cons, namesOf_nil]
    simp [entryNames, Entry.name]
  refine ⟨rfl, ?_, ?_, ?_⟩
  · exact (claim5_hidden_amended ⟨[], true, false, false, false⟩
      [Entry.file ".a" "" 1, Entry.file "b" "" 2] "").1 rfl "b"
      (by rw [hsn]; simp)
  · exact (claim5_hidden_amended ⟨[], true, false, false, false⟩
      [Entry.file ".a" "" 1, Entry.file "b" "" 2] "").2.1
  · exact (claim5_hidden_amended ⟨[], true, false, false, true⟩
      [Entry.file ".a" "" 1, Entry.file "b" "" 2] "").2.2 rfl
      (Entry.file ".a" "" 1) (by simp)

end TreeDrawer

namespace TreeDrawer

theorem replaceAll_nil (pat rep : List Char) : replaceAll pat rep [] = [] := by
  rw [replaceAll.eq_def]

theorem replaceAll_cons (pat rep : List Char) (c : Char) (cs : List Char) :
    replaceAll pat rep (c :: cs)
      = if pat ≠ [] ∧ pat.isPrefixOf (c :: cs)
        then rep ++ replaceAll pat rep ((c :: cs).drop pat.length)
        else c :: replaceAll pat rep cs := by
  rw [replaceAll.eq_def]
  dsimp only
  split <;> rename_i h
  · rfl
  · rfl

theorem replaceAll_split (pat : List Char) (hpat : ('\n' : Char) ∉ pat) :
    ∀ (a b : List Char),
      replaceAll pat [] (a ++ '\n' :: b)
        = replaceAll pat [] a ++ '\n' :: replaceAll pat [] b
  | [], b => by
    rw [List.nil_append, replaceAll_nil, List.nil_append, replaceAll_cons]
    rw [if_neg]
    rintro ⟨h1, h2⟩
    have hp := List.isPrefixOf_iff_prefix.mp h2
    match pat, h1, hp with
    | p :: ps, _, hp =>
      have heq := List.prefix_iff_eq_take.mp hp
      have hhead : p = '\n' := by
        have hlen2 : (p :: ps).length = ps.length + 1 := rfl
        rw [hlen2, List.take_succ_cons] at heq
        injection heq with hh ht
      exact hpat (hhead ▸ List.mem_cons_self p ps)
  | c :: cs, b => by
    have hiff : (pat ≠ [] ∧ pat.isPrefixOf (c :: cs ++ '\n' :: b))
        ↔ (pat ≠ [] ∧ pat.isPrefixOf (c :: cs)) := by
      constructor
      · rintro ⟨h1, h2⟩
        refine ⟨h1, ?_⟩
        have hp := List.isPrefixOf_iff_prefix.mp h2
        have hlen : pat.length ≤ (c :: cs).length := by
          by_contra hgt
          push_neg at hgt
          have heq := List.prefix_iff_eq_take.mp hp
          rw [show (c :: cs ++ '\n' :: b) = (c :: cs) ++ '\n' :: b from rfl]
            at heq
          rw [List.take_append_eq_append_take] at heq
          have hmem : ('\n' : Char) ∈ pat := by
            rw [heq]
            refine List.mem_append.mpr (Or.inr ?_)
            cases hk : pat.length - (c :: cs).length with
            | zero => omega
            | succ k => simp [List.take]
          exact hpat hmem
        have heq := List.prefix_iff_eq_take.mp hp
        rw [show (c :: cs ++ '\n' :: b) = (c :: cs) ++ '\n' :: b from rfl]
          at heq
        rw [List.take_append_eq_append_take] at heq
        have h0 : pat.length - (c :: cs).length = 0 := by omega
        rw [h0] at heq
        simp at heq
        rw [List.isPrefixOf_iff_prefix, heq]
        exact List.take_prefix _ _
      · rintro ⟨h1, h2⟩
        exact ⟨h1, List.isPrefixOf_iff_prefix.mpr
          ((List.isPrefixOf_iff_prefix.mp h2).trans
            (List.prefix_append _ _))⟩
    rw [List.cons_append, replaceAll_cons]
    conv_rhs => rw [replaceAll_cons]
    by_cases hcond : pat ≠ [] ∧ pat.isPrefixOf (c :: cs)
    · have hcond1 : pat ≠ [] ∧ pat.isPrefixOf (c :: cs ++ '\n' :: b) :=
        hiff.mpr hcond
      have hplen : 0 < pat.length := List.length_pos.mpr hcond.1
      rw [if_pos (by rw [show c :: (cs ++ '\n' :: b) = c :: cs ++ '\n' :: b
            from rfl]; exact hcond1), if_pos hcond]
      have hlen : pat.length ≤ (c :: cs).length :=
        (List.isPrefixOf_iff_prefix.mp hcond.2).length_le
      rw [show c :: (cs ++ '\n' :: b) = (c :: cs) ++ '\n' :: b from rfl]
      rw [List.drop_append_of_le_length hlen]
      rw [replaceAll_split pat hpat ((c :: cs).drop pat.length) b]
      simp
    · rw [if_neg (by rw [show c :: (cs ++ '\n' :: b) = c :: cs ++ '\n' :: b
            from rfl]; exact fun hc => hcond (hiff.mp hc)), if_neg hcond]
      rw [replaceAll_split pat hpat cs b]
      simp
termination_by a => a.length
decreasing_by
  all_goals simp
  all_goals omega

end TreeDrawer

namespace TreeDrawer

theorem stripData_split (a b : List Char) :
    stripData (a ++ '\n' :: b) = stripData a ++ '\n' :: stripData b := by
  unfold stripData
  rw [replaceAll_split foreBLUE.data (by decide) a b]
  rw [replaceAll_split foreGREEN.data (by decide) _ _]
  rw [replaceAll_split foreWHITE.data (by decide) _ _]

theorem joinLines_data_cons (l : String) (ls : List String) (h : ls ≠ []) :
    (joinLines (l :: ls)).data = l.data ++ '\n' :: (joinLines ls).data := by
  match ls, h with
  | l2 :: ls2, _ =>
    show (joinLines (l :: l2 :: ls2)).data = _
    rw [show joinLines (l :: l2 :: ls2) = l ++ "\n" ++ joinLines (l2 :: ls2)
      from rfl]
    simp [String.data_append]

theorem stripColors_empty : stripColors "" = "" := by
  rw [stripColors]
  show String.mk (stripData []) = ""
  unfold stripData
  rw [replaceAll_nil, replaceAll_nil, replaceAll_nil]

theorem stripColors_joinLines : ∀ ls : List String,
    stripColors (joinLines ls) = joinLines (ls.map stripColors)
  | [] => by
    show stripColors (joinLines []) = joinLines []
    rw [show joinLines [] = "" from rfl, stripColors_empty]
  | [l] => rfl
  | l :: l2 :: ls => by
    have ih := stripColors_joinLines (l2 :: ls)
    apply String.ext
    calc (stripColors (joinLines (l :: l2 :: ls))).data
        = stripData ((joinLines (l :: l2 :: ls)).data) := rfl
      _ = stripData (l.data ++ '\n' :: (joinLines (l2 :: ls)).data) := by
            rw [joinLines_data_cons l (l2 :: ls) (by simp)]
      _ = stripData l.data ++ '\n' :: stripData ((joinLines (l2 :: ls)).data) :=
            stripData_split _ _
      _ = stripData l.data ++ '\n' :: (stripColors (joinLines (l2 :: ls))).data :=
            rfl
      _ = stripData l.data
            ++ '\n' :: (joinLines ((l2 :: ls).map stripColors)).data := by
            rw [ih]
      _ = (stripColors l).data
            ++ '\n' :: (joinLines ((l2 :: ls).map stripColors)).data := rfl
      _ = (joinLines ((l :: l2 :: ls).map stripColors)).data :=
            (joinLines_data_cons (stripColors l) ((l2 :: ls).map stripColors)
              (by simp)).symm

/-- C9: whenever draw succeeds with a save destination, the content
written to tree_structure.txt is exactly the styled output with each
color marker stripped line by line: same line breaks, same remaining
text, same order. -/
theorem claim9_export_roundtrip (cfg : Config) (root : Entry)
    (as_string : Bool) (p : String) (res : DrawResult)
    (h : draw cfg root as_string (some p) = Except.ok res) :
    res.savedFile = some (p ++ "/tree_structure.txt",
      joinLines ((drawLines cfg root).map stripColors)) := by
  rw [draw.eq_def] at h
  split at h
  · simp at h
  · dsimp only at h
    split at h
    · injection h with h2
      subst h2
      show some (p ++ "/tree_structure.txt",
          stripColors (joinLines (drawLines cfg root))) = _
      rw [stripColors_joinLines]
    · injection h with h2
      subst h2
      show some (p ++ "/tree_structure.txt",
          stripColors (joinLines (drawLines cfg root))) = _
      rw [stripColors_joinLines]

/-- C9 witness: drawing an empty root directory with a save destination
produces the stripped per-line content in the saved file. -/
theorem claim9_witness :
    draw ⟨[], true, false, false, false⟩ (Entry.dir "r" "" []) true
        (some "out")
      = Except.ok ⟨joinLines (drawLines ⟨[], true, false, false, false⟩
            (Entry.dir "r" "" [])),
          ["Tree structure saved to " ++ ("out" ++ "/tree_structure.txt")],
          some ("out" ++ "/tree_structure.txt",
            stripColors (joinLines (drawLines ⟨[], true, false, false, false⟩
              (Entry.dir "r" "" []))))⟩
    ∧ (DrawResult.mk
        (joinLines (drawLines ⟨[], true, false, false, false⟩
          (Entry.dir "r" "" [])))
        ["Tree structure saved to " ++ ("out" ++ "/tree_structure.txt")]
        (some ("out" ++ "/tree_structure.txt",
          stripColors (joinLines (drawLines ⟨[], true, false, false, false⟩
            (Entry.dir "r" "" [])))))).savedFile
        = some ("out" ++ "/tree_structure.txt",
            joinLines ((drawLines ⟨[], true, false, false, false⟩
              (Entry.dir "r" "" [])).map stripColors)) :=
  ⟨rfl, claim9_export_roundtrip ⟨[], true, false, false, false⟩
    (Entry.dir "r" "" []) true "out" _ rfl⟩

end TreeDrawer

namespace TreeDrawer

theorem is_ignored_congr {ig1 ig2 : List String}
    (hig : ∀ p : String, p ∈ ig1 ↔ p ∈ ig2)
    (sf smt ss sh : Bool) (nm : String) :
    is_ignored ⟨ig1, sf, smt, ss, sh⟩ nm
      = is_ignored ⟨ig2, sf, smt, ss, sh⟩ nm := by
  unfold is_ignored
  dsimp only
  cases h2 : ig2.any (fun pat => fnmatchPy nm pat) with
  | true =>
    rw [List.any_eq_true] at h2 ⊢
    obtain ⟨p, hp, hm⟩ := h2
    exact ⟨p, (hig p).mpr hp, hm⟩
  | false =>
    rw [List.any_eq_false] at h2 ⊢
    intro p hp
    exact h2 p ((hig p).mp hp)

theorem filterEntries_congr {ig1 ig2 : List String}
    (hig : ∀ p : String, p ∈ ig1 ↔ p ∈ ig2)
    (sf smt ss sh : Bool) (cs : List Entry) :
    filterEntries ⟨ig1, sf, smt, ss, sh⟩ cs
      = filterEntries ⟨ig2, sf, smt, ss, sh⟩ cs := by
  have h1 : cs.filter (fun e => !is_ignored ⟨ig1, sf, smt, ss, sh⟩ e.name)
      = cs.filter (fun e => !is_ignored ⟨ig2, sf, smt, ss, sh⟩ e.name) :=
    List.filter_congr (fun e _ => by
      rw [is_ignored_congr hig sf smt ss sh e.name])
  unfold filterEntries
  dsimp only
  rw [h1]

theorem orderEntries_congr {ig1 ig2 : List String}
    (hig : ∀ p : String, p ∈ ig1 ↔ p ∈ ig2)
    (sf smt ss sh : Bool) (cs : List Entry) :
    orderEntries ⟨ig1, sf, smt, ss, sh⟩ cs
      = orderEntries ⟨ig2, sf, smt, ss, sh⟩ cs := by
  unfold orderEntries
  rw [filterEntries_congr hig sf smt ss sh cs]

theorem entryLine_congr (ig1 ig2 : List String) (sf smt ss sh : Bool)
    (pre conn : String) (e : Entry) :
    entryLine ⟨ig1, sf, smt, ss, sh⟩ pre conn e
      = entryLine ⟨ig2, sf, smt, ss, sh⟩ pre conn e := by
  cases e <;> rfl

theorem rootLine_congr (ig1 ig2 : List String) (sf smt ss sh : Bool)
    (root : Entry) :
    rootLine ⟨ig1, sf, smt, ss, sh⟩ root
      = rootLine ⟨ig2, sf, smt, ss, sh⟩ root := rfl

theorem tree_structure_congr (ig1 ig2 : List String)
    (hig : ∀ p : String, p ∈ ig1 ↔ p ∈ ig2) (sf smt ss sh : Bool) :
    ∀ (N : Nat) (cs : List Entry), sizeOf cs ≤ N → ∀ pre : String,
      tree_structure ⟨ig1, sf, smt, ss, sh⟩ cs pre
        = tree_structure ⟨ig2, sf, smt, ss, sh⟩ cs pre := by
  intro N
  induction N with
  | zero =>
    intro cs h
    exfalso
    have := sizeOf_list_pos cs
    omega
  | succ N ih =>
    intro cs h pre
    have horder := orderEntries_congr hig sf smt ss sh cs
    have hsubtree : ∀ e, e ∈ orderEntries ⟨ig2, sf, smt, ss, sh⟩ cs →
        ∀ q : String,
        entrySubtree ⟨ig1, sf, smt, ss, sh⟩ e q
          = entrySubtree ⟨ig2, sf, smt, ss, sh⟩ e q := by
      intro e he q
      match e with
      | Entry.file nm mt sz => rfl
      | Entry.dir nm mt cs2 =>
        have h1 := sizeOf_lt_of_mem_orderEntries he
        have h2 : sizeOf cs2 < sizeOf (Entry.dir nm mt cs2) := by
          simp
          try omega
        show tree_structure ⟨ig1, sf, smt, ss, sh⟩ cs2 q
          = tree_structure ⟨ig2, sf, smt, ss, sh⟩ cs2 q
        exact ih cs2 (by omega) q
    have haux : ∀ (es : List Entry),
        (∀ e, e ∈ es → e ∈ orderEntries ⟨ig2, sf, smt, ss, sh⟩ cs) →
        ∀ (n i : Nat),
        renderEntries ⟨ig1, sf, smt, ss, sh⟩ n i pre es
          = renderEntries ⟨ig2, sf, smt, ss, sh⟩ n i pre es := by
      intro es
      induction es with
      | nil =>
        intro _ n i
        rw [renderEntries_nil, renderEntries_nil]
      | cons e rest ihr =>
        intro hmem n i
        rw [renderEntries_cons, renderEntries_cons]
        rw [entryLine_congr ig1 ig2 sf smt ss sh pre _ e]
        rw [hsubtree e (hmem e (List.mem_cons_self e rest))]
        rw [ihr (fun e2 h2 => hmem e2 (List.mem_cons_of_mem e h2)) n (i + 1)]
    rw [tree_structure_def, tree_structure_def, horder]
    exact haux (orderEntries ⟨ig2, sf, smt, ss, sh⟩ cs) (fun _ hx => hx)
      (orderEntries ⟨ig2, sf, smt, ss, sh⟩ cs).length 0

theorem drawLines_congr (ig1 ig2 : List String)
    (hig : ∀ p : String, p ∈ ig1 ↔ p ∈ ig2) (sf smt ss sh : Bool)
    (root : Entry) :
    drawLines ⟨ig1, sf, smt, ss, sh⟩ root
      = drawLines ⟨ig2, sf, smt, ss, sh⟩ root := by
  unfold drawLines
  rw [rootLine_congr ig1 ig2 sf smt ss sh root]
  rw [tree_structure_congr ig1 ig2 hig sf smt ss sh (sizeOf root.children)
    root.children (le_refl _) ""]

/-- C10: the ignored pattern list acts only through membership, as a
set: two configurations whose ignored lists hold the same patterns,
however ordered or duplicated, make draw produce the identical result on
the same tree, for every combination of the other options, of as_string
and of the save destination. -/
theorem claim10_ignored_invariance (ig1 ig2 : List String)
    (hig : ∀ p : String, p ∈ ig1 ↔ p ∈ ig2)
    (sf smt ss sh : Bool) (root : Entry) (as_string : Bool)
    (sp : Option String) :
    draw ⟨ig1, sf, smt, ss, sh⟩ root as_string sp
      = draw ⟨ig2, sf, smt, ss, sh⟩ root as_string sp := by
  have h := drawLines_congr ig1 ig2 hig sf smt ss sh root
  unfold draw
  rw [h]

/-- C10 witness: a reordered, duplicated ignored list gives the same
draw result on a concrete tree. -/
theorem claim10_witness :
    draw ⟨["*.txt", "b"], true, false, false, false⟩
        (Entry.dir "r" "" [Entry.file "a.txt" "" 1, Entry.file "c" "" 2])
        true none
      = draw ⟨["b", "*.txt", "*.txt"], true, false, false, false⟩
        (Entry.dir "r" "" [Entry.file "a.txt" "" 1, Entry.file "c" "" 2])
        true none :=
  claim10_ignored_invariance ["*.txt", "b"] ["b", "*.txt", "*.txt"]
    (by
      intro p
      simp only [List.mem_cons, List.not_mem_nil, or_false]
      tauto)
    true false false false
    (Entry.dir "r" "" [Entry.file "a.txt" "" 1, Entry.file "c" "" 2])
    true none

end TreeDrawer
